import Mathlib

/-!
Verification development for the JSON data inspector / formatter frontend.

The source under scrutiny is the React `App.tsx` module: the JSON flattener
(`flattenObject`), the record locator and ingestion normalizer
(`processIngestedData`), the paste-ingestion wrapper (`handlePasteIngest`)
and the transform-merge coordinator (`handleTransform`).

Modelling conventions:
* Parsed JSON values are the inductive `Json`; an object's field list is its
  JS own-property enumeration order, with distinct keys as produced by
  `JSON.parse`.
* JS numbers are modelled as integers (`Int`); every claim under study only
  involves integral values.
* Fallible code (a thrown `TypeError`, an aborted ingestion) is modelled with
  `Option`: `none` is a thrown exception.
* `localeCompare` is modelled as codepoint string comparison (sign only), the
  default-locale behaviour for the plain ASCII keys at issue.
* `Date.now()` is nondeterministic; it is passed in as a timestamp oracle
  `ts : Nat → Nat` giving the value observed while processing item `idx`.
-/

namespace JsonApp

/-- A parsed JSON value.  `obj` fields are listed in JS enumeration order. -/
inductive Json where
  | null
  | bool (b : Bool)
  | num (n : Int)
  | str (s : String)
  | arr (elems : List Json)
  | obj (fields : List (String × Json))

/-- Boolean structural equality on `Json` (deriving cannot handle the nested
inductive, so it is spelled out; `beqJson_iff` makes it lawful). -/
def beqJson : Json → Json → Bool
  | .null, .null => true
  | .bool a, .bool b => a == b
  | .num a, .num b => a == b
  | .str a, .str b => a == b
  | .arr [], .arr [] => true
  | .arr (x :: xs), .arr (y :: ys) => beqJson x y && beqJson (.arr xs) (.arr ys)
  | .obj [], .obj [] => true
  | .obj ((k, v) :: fs), .obj ((k2, v2) :: gs) =>
      k == k2 && beqJson v v2 && beqJson (.obj fs) (.obj gs)
  | _, _ => false

theorem beqJson_iff : ∀ a b, beqJson a b = true ↔ a = b := by
  intro a b
  induction a, b using beqJson.induct
  case case9 a b hnull hbool hnum hstr harrnil harrcons hobjnil hobjcons =>
    simp only [beqJson]
    constructor
    · intro h
      exact absurd h (by simp)
    · intro h
      subst h
      exfalso
      cases a with
      | null => exact hnull rfl rfl
      | bool bb => cases bb with
        | false => exact hbool false false rfl rfl
        | true => exact hbool true true rfl rfl
      | num n => exact hnum n n rfl rfl
      | str s => exact hstr s s rfl rfl
      | arr l => cases l with
        | nil => exact harrnil rfl rfl
        | cons x xs => exact harrcons x xs x xs rfl rfl
      | obj l => cases l with
        | nil => exact hobjnil rfl rfl
        | cons p fs => exact hobjcons p.1 p.2 fs p.1 p.2 fs rfl rfl
  all_goals simp_all [beqJson]

instance : DecidableEq Json := fun a b => decidable_of_iff _ (beqJson_iff a b)

/-- A flat record: the key/value pairs of a JS object in enumeration order. -/
abbrev FlatRec := List (String × Json)

/-- JS property write `acc[k] = v`: an existing key keeps its position and is
overwritten, a fresh key is appended. -/
def objSet (acc : FlatRec) (k : String) (v : Json) : FlatRec :=
  if acc.any (fun p => p.1 = k) then
    acc.map (fun p => if p.1 = k then (k, v) else p)
  else acc ++ [(k, v)]

/-- JS `Object.assign(acc, m)`: write every entry of `m` into `acc` in order. -/
def objAssign (acc : FlatRec) (m : FlatRec) : FlatRec :=
  m.foldl (fun a p => objSet a p.1 p.2) acc

/-- First binding of `k` in a field list: JS property read on a parsed object. -/
def jsGet (fields : FlatRec) (k : String) : Option Json :=
  (fields.find? (fun p => p.1 = k)).map (fun p => p.2)

/-- Source test `typeof v === 'object' && v !== null && !Array.isArray(v)`. -/
def isPlainObj : Json → Bool
  | .obj _ => true
  | _ => false

/-- Source test `Array.isArray v`. -/
def isArr : Json → Bool
  | .arr _ => true
  | _ => false

/-- JS `Object.keys`/`Object.entries` own enumerable entries: `none` models the
`TypeError` thrown by `Object.keys(null)`; an array enumerates its indices, a
string its characters, and other primitives have no own enumerable keys. -/
def jsEntries : Json → Option FlatRec
  | .null => none
  | .obj fs => some fs
  | .arr xs => some ((List.range xs.length).zip xs |>.map (fun p => (Nat.repr p.1, p.2)))
  | .str s => some ((List.range s.length).zip s.data |>.map
      (fun p => (Nat.repr p.1, Json.str (String.mk [p.2]))))
  | _ => some []

/-- The body of the source `flattenObject` reducer, one field list at a time:

```
return Object.keys(obj).reduce((acc, k) => {
  const pre = prefix.length ? prefix + '.' : '';
  if (typeof obj[k] === 'object' && obj[k] !== null && !Array.isArray(obj[k])) {
    Object.assign(acc, flattenObject(obj[k], pre + k));
  } else {
    acc[pre + k] = obj[k];
  }
  return acc;
}, {});
```

The JS `prefix.length ? _ : _` test is number truthiness, i.e. `prefix ≠ ""`.
A recursive call always receives a plain object, whose entries are exactly its
field list, so the recursion works directly on field lists. -/
def flattenFields : List (String × Json) → String → FlatRec → FlatRec
  | [], _, acc => acc
  | (k, v) :: rest, pre, acc =>
    match v with
    | Json.obj fs =>
        flattenFields rest pre
          (objAssign acc (flattenFields fs ((if pre = "" then "" else pre ++ ".") ++ k) []))
    | _ => flattenFields rest pre (objSet acc ((if pre = "" then "" else pre ++ ".") ++ k) v)

/-- Source `flattenObject(obj, prefix)`; `none` models the `TypeError` raised
by `Object.keys(null)`. -/
def flattenObject (j : Json) (pre : String) : Option FlatRec :=
  (jsEntries j).map (fun entries => flattenFields entries pre [])

example : flattenFields [("a", Json.obj [("b", Json.num 2)]), ("c", Json.num 1)] "" []
    = [("a.b", Json.num 2), ("c", Json.num 1)] := by
  simp [flattenFields, objSet, objAssign]

/-! ### Algebra of JS object writes -/

/-- Keys of a field list, in enumeration order. -/
def keysOf (l : FlatRec) : List String := l.map Prod.fst

/-- Pointwise overwrite of the value at key `k`. -/
def rk (k : String) (v : Json) (p : String × Json) : String × Json :=
  if p.1 = k then (k, v) else p

theorem keysOf_map_rk (l : FlatRec) (k : String) (v : Json) :
    keysOf (l.map (rk k v)) = keysOf l := by
  induction l with
  | nil => rfl
  | cons p rest ih =>
      simp only [keysOf, List.map_cons, List.map_map] at *
      by_cases h : p.1 = k <;> simp [rk, h, ih]

theorem mem_keysOf_objSet (acc : FlatRec) (k a : String) (v : Json) :
    a ∈ keysOf (objSet acc k v) ↔ a ∈ keysOf acc ∨ a = k := by
  unfold objSet
  by_cases h : acc.any (fun p => p.1 = k)
  · rw [if_pos h]
    show a ∈ keysOf (acc.map (rk k v)) ↔ _
    rw [keysOf_map_rk]
    simp only [List.any_eq_true, decide_eq_true_eq] at h
    obtain ⟨p, hp, hpk⟩ := h
    constructor
    · exact Or.inl
    · rintro (h' | rfl)
      · exact h'
      · exact hpk ▸ List.mem_map_of_mem Prod.fst hp
  · rw [if_neg h]
    simp [keysOf]

theorem nodup_keysOf_objSet (acc : FlatRec) (k : String) (v : Json)
    (h : (keysOf acc).Nodup) : (keysOf (objSet acc k v)).Nodup := by
  unfold objSet
  by_cases hk : acc.any (fun p => p.1 = k)
  · rw [if_pos hk]
    show (keysOf (acc.map (rk k v))).Nodup
    rw [keysOf_map_rk]; exact h
  · rw [if_neg hk]
    simp only [List.any_eq_true, decide_eq_true_eq, not_exists, not_and] at hk
    simp only [keysOf, List.map_append, List.map_cons, List.map_nil] at *
    rw [List.nodup_append]
    refine ⟨h, List.nodup_singleton k, ?_⟩
    intro a ha hb
    simp only [List.mem_singleton] at hb
    subst hb
    obtain ⟨p, hp, rfl⟩ := List.mem_map.mp ha
    exact hk p hp rfl

theorem nodup_keysOf_objAssign (m : FlatRec) : ∀ acc : FlatRec,
    (keysOf acc).Nodup → (keysOf (objAssign acc m)).Nodup := by
  induction m with
  | nil => intro acc h; exact h
  | cons p rest ih =>
      intro acc h
      exact ih (objSet acc p.1 p.2) (nodup_keysOf_objSet acc p.1 p.2 h)

theorem mem_objSet (acc : FlatRec) (k : String) (v : Json) (p : String × Json)
    (h : p ∈ objSet acc k v) : p = (k, v) ∨ p ∈ acc := by
  unfold objSet at h
  split at h
  · obtain ⟨q, hq, hqp⟩ := List.mem_map.mp h
    by_cases hqk : q.1 = k
    · simp only [hqk, if_pos] at hqp; exact Or.inl hqp.symm
    · simp only [hqk, if_neg, if_false] at hqp; exact Or.inr (hqp ▸ hq)
  · rcases List.mem_append.mp h with h' | h'
    · exact Or.inr h'
    · simp only [List.mem_singleton] at h'; exact Or.inl h'

theorem mem_objAssign (m : FlatRec) : ∀ (acc : FlatRec) (p : String × Json),
    p ∈ objAssign acc m → p ∈ acc ∨ p ∈ m := by
  induction m with
  | nil => intro acc p h; exact Or.inl h
  | cons q rest ih =>
      intro acc p h
      rcases ih (objSet acc q.1 q.2) p h with h' | h'
      · rcases mem_objSet acc q.1 q.2 p h' with h'' | h''
        · right; rw [h'']; simp
        · exact Or.inl h''
      · right; right; exact h'

theorem objSet_objSet_same (acc : FlatRec) (k : String) (v w : Json) :
    objSet (objSet acc k v) k w = objSet acc k w := by
  unfold objSet
  by_cases h : acc.any (fun p => p.1 = k)
  · have h2 : (acc.map (fun p => if p.1 = k then (k, v) else p)).any (fun p => p.1 = k) := by
      simp only [List.any_eq_true, decide_eq_true_eq] at h ⊢
      obtain ⟨p, hp, hpk⟩ := h
      exact ⟨(k, v), List.mem_map.mpr ⟨p, hp, by simp [hpk]⟩, rfl⟩
    rw [if_pos h, if_pos h2, if_pos h, List.map_map]
    congr 1
    funext p
    by_cases hpk : p.1 = k <;> simp [hpk]
  · have h2 : ((acc ++ [(k, v)]).any (fun p => p.1 = k)) := by
      simp
    rw [if_neg h, if_pos h2, if_neg h, List.map_append]
    have hid : acc.map (fun p => if p.1 = k then (k, w) else p) = acc := by
      have : ∀ p ∈ acc, (if p.1 = k then ((k, w) : String × Json) else p) = id p := by
        intro p hp
        have : ¬ p.1 = k := by
          intro hpk
          exact h (List.any_eq_true.mpr ⟨p, hp, decide_eq_true hpk⟩)
        simp [this]
      rw [List.map_congr_left this, List.map_id]
    rw [hid]
    simp

theorem objSet_eq_rk (acc : FlatRec) (k : String) (v : Json) :
    objSet acc k v =
      if acc.any (fun p => p.1 = k) then acc.map (rk k v) else acc ++ [(k, v)] := rfl

theorem any_key_map_rk (l : FlatRec) (k b : String) (v : Json) (hkb : ¬ k = b) :
    (l.map (rk k v)).any (fun p => p.1 = b) = l.any (fun p => p.1 = b) := by
  rw [List.any_map]
  congr 1
  funext p
  simp only [Function.comp_apply, rk]
  by_cases h : p.1 = k
  · have h1 : ¬ p.1 = b := fun hh => hkb (h ▸ hh)
    simp [h, h1, hkb]
  · simp [h]

theorem objSet_map_rk (L : FlatRec) (k b : String) (v u : Json) (hkb : ¬ b = k) :
    objSet (L.map (rk k v)) b u = (objSet L b u).map (rk k v) := by
  rw [objSet_eq_rk, objSet_eq_rk]
  rw [any_key_map_rk L k b v (fun h => hkb h.symm)]
  by_cases h : L.any (fun p => p.1 = b)
  · rw [if_pos h, if_pos h, List.map_map, List.map_map]
    congr 1
    funext p
    simp only [Function.comp_apply, rk]
    by_cases hpk : p.1 = k
    · have hpb : ¬ p.1 = b := fun hh => hkb (hh ▸ hpk)
      have hkb2 : ¬ (k : String) = b := fun hh => hkb hh.symm
      simp [hpk, hpb, hkb2]
    · by_cases hpb : p.1 = b
      · simp [hpk, hpb, hkb]
      · simp [hpk, hpb]
  · rw [if_neg h, if_neg h, List.map_append]
    simp [rk, hkb]

theorem objAssign_map_rk (xs : FlatRec) : ∀ (L : FlatRec) (k : String) (v : Json),
    (∀ p ∈ xs, ¬ p.1 = k) →
    objAssign (L.map (rk k v)) xs = (objAssign L xs).map (rk k v) := by
  induction xs with
  | nil => intro L k v _; rfl
  | cons q rest ih =>
      intro L k v hxs
      show objAssign (objSet (L.map (rk k v)) q.1 q.2) rest = _
      rw [objSet_map_rk L k q.1 v q.2 (hxs q (List.mem_cons_self q rest))]
      exact ih (objSet L q.1 q.2) k v (fun p hp => hxs p (List.mem_cons_of_mem q hp))

theorem objSet_present (L : FlatRec) (k : String) (v : Json)
    (h : k ∈ keysOf L) : objSet L k v = L.map (rk k v) := by
  unfold objSet
  have : L.any (fun p => p.1 = k) := by
    simp only [List.any_eq_true, decide_eq_true_eq]
    obtain ⟨p, hp, rfl⟩ := List.mem_map.mp h
    exact ⟨p, hp, rfl⟩
  rw [if_pos this]
  rfl

theorem objSet_then_rk (acc : FlatRec) (k : String) (w v : Json) :
    (objSet acc k w).map (rk k v) = objSet acc k v := by
  unfold objSet
  by_cases h : acc.any (fun p => p.1 = k)
  · rw [if_pos h, if_pos h, List.map_map]
    congr 1
    funext p
    simp only [Function.comp_apply, rk]
    by_cases hpk : p.1 = k <;> simp [hpk]
  · rw [if_neg h, if_neg h, List.map_append]
    have hid : acc.map (rk k v) = acc := by
      have : ∀ p ∈ acc, rk k v p = id p := by
        intro p hp
        have : ¬ p.1 = k := by
          intro hpk
          exact h (List.any_eq_true.mpr ⟨p, hp, decide_eq_true hpk⟩)
        simp [rk, this]
      rw [List.map_congr_left this, List.map_id]
    rw [hid]
    simp [rk]

theorem mem_keysOf_objAssign (m : FlatRec) : ∀ (acc : FlatRec) (a : String),
    a ∈ keysOf acc → a ∈ keysOf (objAssign acc m) := by
  induction m with
  | nil => intro acc a h; exact h
  | cons q rest ih =>
      intro acc a h
      exact ih (objSet acc q.1 q.2) a ((mem_keysOf_objSet acc q.1 a q.2).mpr (Or.inl h))

theorem objAssign_objSet (m : FlatRec) : ∀ (acc : FlatRec) (k : String) (v : Json),
    (keysOf m).Nodup →
    objAssign acc (objSet m k v) = objSet (objAssign acc m) k v := by
  induction m with
  | nil =>
      intro acc k v _
      show objAssign acc [(k, v)] = _
      rfl
  | cons q rest ih =>
      intro acc k v hm
      obtain ⟨a, w⟩ := q
      simp only [keysOf, List.map_cons, List.nodup_cons] at hm
      obtain ⟨hq, hrest⟩ := hm
      by_cases hk : k = a
      · subst hk
        have hpos : (((k, w) :: rest).any (fun p => p.1 = k)) := by simp
        have hrk : rest.map (rk k v) = rest := by
          have : ∀ p ∈ rest, rk k v p = id p := by
            intro p hp
            have hpk : ¬ p.1 = k := fun hh => hq (hh ▸ List.mem_map_of_mem Prod.fst hp)
            simp [rk, hpk]
          rw [List.map_congr_left this, List.map_id]
        have hset : objSet ((k, w) :: rest) k v = (k, v) :: rest := by
          rw [objSet_eq_rk, if_pos hpos, List.map_cons, hrk]
          simp [rk]
        rw [hset]
        show objAssign (objSet acc k v) rest
            = objSet (objAssign (objSet acc k w) rest) k v
        have hkeyL : k ∈ keysOf (objSet acc k w) :=
          (mem_keysOf_objSet acc k k w).mpr (Or.inr rfl)
        have hkeyR : k ∈ keysOf (objAssign (objSet acc k w) rest) :=
          mem_keysOf_objAssign rest (objSet acc k w) k hkeyL
        rw [objSet_present _ k v hkeyR]
        rw [← objAssign_map_rk rest (objSet acc k w) k v
          (fun p hp hpk => hq (hpk ▸ List.mem_map_of_mem Prod.fst hp))]
        rw [objSet_then_rk]
      · have hak : ¬ (a : String) = k := fun hh => hk hh.symm
        have hset : objSet ((a, w) :: rest) k v = (a, w) :: objSet rest k v := by
          rw [objSet_eq_rk, objSet_eq_rk]
          by_cases h : rest.any (fun p => p.1 = k)
          · have hpos : (((a, w) :: rest).any (fun p => p.1 = k)) := by
              simp only [List.any_cons, h, Bool.or_true]
            rw [if_pos hpos, if_pos h, List.map_cons]
            simp [rk, hak]
          · have hneg : ¬ (((a, w) :: rest).any (fun p => p.1 = k)) := by
              simp only [List.any_cons, Bool.or_eq_true, not_or]
              exact ⟨by simp only [decide_eq_true_eq]; exact hak, by simp [h]⟩
            rw [if_neg hneg, if_neg h]
            simp
        rw [hset]
        show objAssign (objSet acc a w) (objSet rest k v)
            = objSet (objAssign (objSet acc a w) rest) k v
        exact ih (objSet acc a w) k v hrest

theorem objAssign_objAssign (xs : FlatRec) : ∀ (m acc : FlatRec),
    (keysOf m).Nodup →
    objAssign acc (objAssign m xs) = objAssign (objAssign acc m) xs := by
  induction xs with
  | nil => intro m acc _; rfl
  | cons q rest ih =>
      intro m acc hm
      show objAssign acc (objAssign (objSet m q.1 q.2) rest) = _
      rw [ih (objSet m q.1 q.2) acc (nodup_keysOf_objSet m q.1 q.2 hm)]
      rw [objAssign_objSet m acc q.1 q.2 hm]
      rfl

theorem objAssign_nil_assign (xs acc : FlatRec) :
    objAssign acc (objAssign [] xs) = objAssign acc xs := by
  have := objAssign_objAssign xs [] acc (by simp [keysOf])
  simpa using this

theorem objAssign_append (acc xs ys : FlatRec) :
    objAssign acc (xs ++ ys) = objAssign (objAssign acc xs) ys :=
  List.foldl_append ..

theorem objSet_absent (acc : FlatRec) (k : String) (v : Json)
    (h : k ∉ keysOf acc) : objSet acc k v = acc ++ [(k, v)] := by
  rw [objSet_eq_rk, if_neg]
  simp only [List.any_eq_true, decide_eq_true_eq, not_exists, not_and]
  intro p hp hpk
  exact h (hpk ▸ List.mem_map_of_mem Prod.fst hp)

/-! ### The flattening rule as the spec words it -/

/-- Modelled from the spec's flattening rule (§4.2), as a refinement
companion to `flattenFields`: each owned property contributes, in enumeration
order, either the recursively flattened sub-record (when the value is a plain
object, with the key path extended by `.` + property name) or its single
dotted binding (any other value, unmodified); the claim's last-write-wins
merge of these contributions is `objAssign []`. -/
def specContribs : List (String × Json) → String → List (String × Json)
  | [], _ => []
  | (k, v) :: rest, pre =>
    (match v with
     | Json.obj fs => specContribs fs ((if pre = "" then "" else pre ++ ".") ++ k)
     | _ => [((if pre = "" then "" else pre ++ ".") ++ k, v)]) ++ specContribs rest pre

theorem flattenFields_eq_objAssign (fields : List (String × Json)) (pre : String)
    (acc : FlatRec) :
    flattenFields fields pre acc = objAssign acc (specContribs fields pre) := by
  induction fields, pre, acc using flattenFields.induct with
  | case1 pre acc => simp [flattenFields, specContribs, objAssign]
  | case2 k rest pre acc fs ih1 ih2 =>
      simp only [dite_eq_ite] at ih1 ih2
      simp only [flattenFields, specContribs]
      rw [ih2, ih1, objAssign_append, objAssign_nil_assign]
  | case3 k v rest pre acc hv ih =>
      simp only [dite_eq_ite] at ih
      cases v
      case obj fs => exact absurd rfl (hv fs)
      all_goals
        simp only [flattenFields, specContribs]
        rw [ih, objAssign_append]
        rfl

theorem specContribs_values (fields : List (String × Json)) (pre : String) :
    ∀ p ∈ specContribs fields pre, isPlainObj p.2 = false := by
  induction fields, pre using specContribs.induct with
  | case1 x => intro p hp; simp [specContribs] at hp
  | case2 k v rest pre hm ih =>
      intro p hp
      cases v
      case obj fs =>
        rw [specContribs.eq_2] at hp
        rcases List.mem_append.mp hp with hp | hp
        · exact hm p hp
        · exact ih p hp
      all_goals
        simp only [specContribs] at hp
        rcases List.mem_append.mp hp with hp | hp
        · rcases List.mem_singleton.mp hp with rfl
          rfl
        · exact ih p hp

theorem flattenFields_values (fields : List (String × Json)) (pre : String) :
    ∀ p ∈ flattenFields fields pre [], isPlainObj p.2 = false := by
  intro p hp
  rw [flattenFields_eq_objAssign] at hp
  rcases mem_objAssign _ _ p hp with hp | hp
  · simp at hp
  · exact specContribs_values fields pre p hp

theorem nodup_keysOf_flattenFields (fields : List (String × Json)) (pre : String) :
    (keysOf (flattenFields fields pre [])).Nodup := by
  rw [flattenFields_eq_objAssign]
  exact nodup_keysOf_objAssign _ [] (by simp [keysOf])

theorem flattenFields_already_flat : ∀ (fields : List (String × Json)) (acc : FlatRec),
    (keysOf (acc ++ fields)).Nodup → (∀ p ∈ fields, isPlainObj p.2 = false) →
    flattenFields fields "" acc = acc ++ fields := by
  intro fields
  induction fields with
  | nil => intro acc _ _; simp [flattenFields]
  | cons q rest ih =>
      intro acc hnd hflat
      obtain ⟨k, v⟩ := q
      have hkacc : k ∉ keysOf acc := by
        simp only [keysOf, List.map_append, List.nodup_append] at hnd
        intro hmem
        exact hnd.2.2 hmem (by simp)
      have hv : isPlainObj v = false := hflat (k, v) (List.mem_cons_self _ _)
      have hek : ("" : String) ++ k = k := rfl
      have hstep : flattenFields ((k, v) :: rest) "" acc
          = flattenFields rest "" (objSet acc k v) := by
        cases v
        case obj fs => simp [isPlainObj] at hv
        all_goals simp only [flattenFields, if_true, hek]
      rw [hstep, objSet_absent acc k v hkacc]
      have hnd2 : (keysOf ((acc ++ [(k, v)]) ++ rest)).Nodup := by
        rw [List.append_assoc]
        simpa using hnd
      rw [ih (acc ++ [(k, v)]) hnd2 (fun p hp => hflat p (List.mem_cons_of_mem _ hp))]
      rw [List.append_assoc]
      rfl

/-! ### Ingestion normalizer (`processIngestedData`) -/

/-- JS truthiness of a parsed JSON value (no `NaN`, `-0` or `undefined` in the
model; arrays and objects are always truthy). -/
def truthy : Json → Bool
  | .null => false
  | .bool b => b
  | .num n => n != 0
  | .str s => s != ""
  | .arr _ => true
  | .obj _ => true

/-- JS property read `x.k` on a value known not to be `null` at the read site:
objects read their own property, any other value yields `undefined` (`none`). -/
def jsGetProp : Json → String → Option Json
  | .obj fs, k => jsGet fs k
  | _, _ => none

/-- JS `a || b` where `a` is a possibly-`undefined` property read
(`undefined` and falsy values fall through to `b`). -/
def jsOrOpt (a : Option Json) (b : Json) : Json :=
  match a with
  | some v => if truthy v then v else b
  | none => b

/-- The synthesized identifier template literal: `gen-${idx}-${Date.now()}`,
with `t` the `Date.now()` value observed for this item. -/
def genId (idx t : Nat) : String :=
  "gen-" ++ Nat.repr idx ++ "-" ++ Nat.repr t

/-- One step of the normalizing `dataToSet.map((item, idx) => ...)`:

```
const flat = flattenObject(item);
return { ...flat, id: item.id || flat.id || `gen-${idx}-${Date.now()}` };
```

The source calls `flattenObject` with its default prefix `''`; a `null` item
makes `Object.keys` throw, aborting the whole map (`none`), so the later
`item.id` read never happens on `null`. -/
def processItem (item : Json) (idx t : Nat) : Option FlatRec :=
  (flattenObject item "").map (fun flat =>
    objSet flat "id"
      (jsOrOpt (jsGetProp item "id")
        (jsOrOpt (jsGet flat "id") (Json.str (genId idx t)))))

/-- The normalizing map over the located items, with JS array-map indices and
the per-item `Date.now()` oracle `ts`. -/
def processItemsFrom : List Json → Nat → (Nat → Nat) → Option (List FlatRec)
  | [], _, _ => some []
  | item :: rest, idx, ts =>
    match processItem item idx (ts idx) with
    | none => none
    | some r => (processItemsFrom rest (idx + 1) ts).map (fun l => r :: l)

def processItems (items : List Json) (ts : Nat → Nat) : Option (List FlatRec) :=
  processItemsFrom items 0 ts

/-! ### Record locator (inside `processIngestedData`) -/

/-- The fixed candidate property names scanned first. -/
def candidates : List String := ["task_results", "data", "items", "results", "records"]

/-- The `for (const key of candidates) { if (Array.isArray(json[key])) { dataToSet = json[key]; break; } }`
scan: value of the first candidate property holding an array. -/
def findCandidateArr : List String → List (String × Json) → Option (List Json)
  | [], _ => none
  | k :: ks, fields =>
    match jsGet fields k with
    | some (Json.arr xs) => some xs
    | _ => findCandidateArr ks fields

/-- `Object.values(json).find(v => Array.isArray(v))`: the first array among
the object's own values in enumeration order. -/
def findArrValue : List (String × Json) → Option (List Json)
  | [] => none
  | (_, Json.arr xs) :: _ => some xs
  | _ :: rest => findArrValue rest

/-- The `dataToSet` value of `processIngestedData` just before the final
`dataToSet.length > 0` check.  Note the fallback scan runs whenever
`dataToSet` is still empty — also when a candidate property held an *empty*
array — and an array found by `find` is always truthy, even when empty. -/
def locateArray : Json → List Json
  | Json.arr xs => xs
  | Json.obj fields =>
    let d1 := (findCandidateArr candidates fields).getD []
    if d1.length = 0 ∧ 0 < fields.length then (findArrValue fields).getD d1 else d1
  | _ => []

/-! ### Key density and key ordering -/

/-- `density[k] = (density[k] || 0) + 1` on a JS object used as a counter. -/
def bumpKey (d : List (String × Nat)) (k : String) : List (String × Nat) :=
  if d.any (fun p => p.1 = k) then d.map (fun p => if p.1 = k then (k, p.2 + 1) else p)
  else d ++ [(k, 1)]

/-- The density pass: `processed.forEach(item => Object.keys(item).forEach(k => ...))`. -/
def computeDensity (processed : List FlatRec) : List (String × Nat) :=
  processed.foldl (fun d r => (keysOf r).foldl bumpKey d) []

/-- Density lookup with the source's `|| 0` default. -/
def dGet (d : List (String × Nat)) (k : String) : Nat :=
  ((d.find? (fun p => p.1 = k)).map (fun p => p.2)).getD 0

/-- `Array.from(new Set(list))`: dedup keeping first occurrences in order. -/
def dedupFirst : List String → List String
  | [] => []
  | x :: xs => x :: dedupFirst (xs.filter (fun y => y ≠ x))
  termination_by l => l.length
  decreasing_by
    exact Nat.lt_succ_of_le (List.length_filter_le _ _)

/-- The fixed priority list of the key sort. -/
def priority : List String :=
  ["id", "status", "input_text", "input.text", "text", "generated_sql",
   "model_output.cleaned_sql"]

/-- Sign model of `a.localeCompare(b)`: codepoint comparison, the
default-locale behaviour on the ASCII keys at issue. -/
def localeCompare (a b : String) : Int :=
  if a < b then -1 else if b < a then 1 else 0

/-- JS `Array.prototype.indexOf`, with `-1` rendered as `none`. -/
def jsIndexOf : List String → String → Option Nat
  | [], _ => none
  | x :: xs, a => if x = a then some 0 else (jsIndexOf xs a).map (fun i => i + 1)

/-- The comparator passed to `keys.sort`:

```
const pA = priority.indexOf(a); const pB = priority.indexOf(b);
if (pA !== -1 && pB !== -1) return pA - pB;
if (pA !== -1) return -1;
if (pB !== -1) return 1;
if ((density[b] || 0) !== (density[a] || 0)) return (density[b] || 0) - (density[a] || 0);
return a.localeCompare(b);
```

`indexOf ≠ -1` is rendered as `jsIndexOf = some _`. -/
def keyCmp (density : List (String × Nat)) (a b : String) : Int :=
  match jsIndexOf priority a, jsIndexOf priority b with
  | some pA, some pB => (pA : Int) - pB
  | some _, none => -1
  | none, some _ => 1
  | none, none =>
    if dGet density b ≠ dGet density a then (dGet density b : Int) - dGet density a
    else localeCompare a b

/-- JS `keys.sort(cmp)` (stable, consistent comparator): merge sort by
`cmp ≤ 0`. -/
def sortKeys (density : List (String × Nat)) (keys : List String) : List String :=
  keys.mergeSort (fun a b => keyCmp density a b ≤ 0)

/-! ### Application state and handlers -/

inductive ViewMode where
  | list
  | ingest
deriving DecidableEq

/-- The React state components relevant to the claims (`data` is the
WorkingSet, `keyDensity`/`allKeys` the derived key metadata, `selectedIds` the
SelectionSet). -/
structure AppState where
  data : List FlatRec
  keyDensity : List (String × Nat)
  allKeys : List String
  selectedIds : List Json
  error : Option String
  viewMode : ViewMode
deriving DecidableEq

/-- `processIngestedData(json)` as a state transformer.  The result is `none`
when the normalizing map throws (a `null` item), which happens before any
`set*` call, leaving the state to the caller's `catch`. -/
def processIngestedData (json : Json) (ts : Nat → Nat) (st : AppState) : Option AppState :=
  let dataToSet := locateArray json
  if 0 < dataToSet.length then
    (processItems dataToSet ts).map (fun processed =>
      let density := computeDensity processed
      let keys := dedupFirst (processed.flatMap keysOf)
      let sorted := sortKeys density keys
      { st with
          data := processed
          keyDensity := density
          allKeys := sorted.filter (fun k => k != "id" && k != "status")
          viewMode := ViewMode.list
          error := none })
  else some { st with error := some "Could not find a valid array of data in the JSON." }

/-- `handlePasteIngest`: `rawParsed` is the outcome of `JSON.parse(rawInput)`
(`none` = parse threw); a throw escaping `processIngestedData` lands in the
same `catch` block. -/
def handlePasteIngest (rawParsed : Option Json) (ts : Nat → Nat) (st : AppState) : AppState :=
  match rawParsed with
  | none => { st with error := some "Invalid JSON text." }
  | some json =>
    match processIngestedData json ts st with
    | none => { st with error := some "Invalid JSON text." }
    | some st2 => st2

/-! ### Transform-merge coordinator (`handleTransform`) -/

/-- The id read `d.id` on a working-set record. -/
def recId (r : FlatRec) : Option Json := jsGet r "id"

/-- Lookup in `new Map(out.map(d => [d.id, d]))`: `Map` keeps the *last*
entry written for a key, so search the tail first. -/
def mapGet (out : List FlatRec) (key : Option Json) : Option FlatRec :=
  match out with
  | [] => none
  | r :: rest =>
    match mapGet rest key with
    | some hit => some hit
    | none => if recId r = key then some r else none

/-- `selectedIds.size > 0 ? data.filter(d => selectedIds.has(d.id)) : data`. -/
def itemsToTransform (st : AppState) : List FlatRec :=
  if 0 < st.selectedIds.length then
    st.data.filter (fun d =>
      match recId d with
      | some v => st.selectedIds.contains v
      | none => false)
  else st.data

/-- `handleTransform` as a state transformer.  The backend round trip is
abstracted by `engine`, mapping the posted batch to the `response.data.data`
array; `engine _ = none` models a missing or non-array payload, in which case
no `setData` runs.  When items are selected, the merged map is stored; a
full-set transform then immediately overwrites it with the engine output. -/
def handleTransform (st : AppState) (engine : List FlatRec → Option (List FlatRec)) :
    AppState :=
  if st.selectedIds.length = 0 ∧ st.data.length = 0 then st
  else
    match engine (itemsToTransform st) with
    | none => st
    | some out =>
      let merged := st.data.map (fun d => (mapGet out (recId d)).getD d)
      if st.selectedIds.length = 0 then { st with data := out }
      else { st with data := merged }

/-! ### Claims about the flattener -/

/-- C1: for every JSON object input, `flattenObject` produces exactly the
last-write-wins merge (in property enumeration order) of the per-property
contributions the spec describes — plain-object values are recursed into with
the key path extended by `.` + property name, every other value is stored
unmodified under its full dotted path — and consequently no key of any
flattener output maps to a plain non-array object.  The spec's example
`{"id": "r1", "a": {"b": 2}}` yields `a.b = 2` and no key `a`. -/
theorem claim_C1 :
    (∀ fields : List (String × Json),
      flattenObject (Json.obj fields) "" = some (objAssign [] (specContribs fields "")))
    ∧ (∀ j : Json, ((flattenObject j "").getD []).all (fun p => !(isPlainObj p.2)) = true)
    ∧ flattenObject (Json.obj [("id", Json.str "r1"), ("a", Json.obj [("b", Json.num 2)])]) ""
        = some [("id", Json.str "r1"), ("a.b", Json.num 2)] := by
  refine ⟨?_, ?_, ?_⟩
  · intro fields
    simp [flattenObject, jsEntries, flattenFields_eq_objAssign]
  · intro j
    cases hj : jsEntries j with
    | none => simp [flattenObject, hj]
    | some e =>
        simp only [flattenObject, hj, Option.map_some', Option.getD_some]
        rw [List.all_eq_true]
        intro p hp
        have := flattenFields_values e "" p hp
        simp [this]
  · simp [flattenObject, jsEntries, flattenFields, objSet, objAssign]

/-- C8: flattening an already-flat record (no plain-object values) returns it
unchanged, and flattening any object twice equals flattening it once. -/
theorem claim_C8 :
    (∀ fields : List (String × Json),
      (keysOf fields).Nodup → (∀ p ∈ fields, isPlainObj p.2 = false) →
      flattenObject (Json.obj fields) "" = some fields)
    ∧ (∀ (fields flat : List (String × Json)),
      flattenObject (Json.obj fields) "" = some flat →
      flattenObject (Json.obj flat) "" = some flat) := by
  constructor
  · intro fields hnd hflat
    simp only [flattenObject, jsEntries, Option.map_some', Option.some.injEq]
    have := flattenFields_already_flat fields [] (by simpa using hnd) hflat
    simpa using this
  · intro fields flat h
    simp only [flattenObject, jsEntries, Option.map_some', Option.some.injEq] at h
    subst h
    simp only [flattenObject, jsEntries, Option.map_some', Option.some.injEq]
    have hnd := nodup_keysOf_flattenFields fields ""
    have hval := flattenFields_values fields ""
    have := flattenFields_already_flat (flattenFields fields "" []) []
      (by simpa using hnd) hval
    simpa using this

/-- Witness for C8 at a concrete already-flat record. -/
theorem claim_C8_witness :
    flattenObject (Json.obj [("x", Json.num 1), ("y", Json.str "a")]) ""
      = some [("x", Json.num 1), ("y", Json.str "a")] :=
  claim_C8.1 [("x", Json.num 1), ("y", Json.str "a")] (by decide) (by decide)

/-- C9 as stated is false: the flattener is not total on `null`
(`Object.keys(null)` throws a `TypeError`). -/
theorem claim_C9_counterexample :
    ¬ (∀ j : Json, (flattenObject j "").isSome = true) := by
  intro h
  have := h Json.null
  simp [flattenObject, jsEntries] at this

/-- C9 amended: the flattener is total on every non-`null` single-record
RawValue — strings, numbers, booleans, arrays and objects all produce a
FlatRecord without crashing. -/
theorem claim_C9 : ∀ j : Json, j ≠ Json.null → (flattenObject j "").isSome = true := by
  intro j hj
  cases j <;> simp_all [flattenObject, jsEntries]

/-- Witness for C9 at a primitive input. -/
theorem claim_C9_witness :
    (Json.num 5 ≠ Json.null) ∧ (flattenObject (Json.num 5) "").isSome = true :=
  ⟨by simp, claim_C9 (Json.num 5) (by simp)⟩

/-! ### Claim about ingestion failure -/

/-- C7: a failed ingestion — invalid JSON (parse throw) or `NoArrayFound`
(no non-empty record array located) — leaves the WorkingSet and its derived
key metadata completely unchanged. -/
theorem claim_C7 :
    ∀ (st : AppState) (ts : Nat → Nat),
      ((handlePasteIngest none ts st).data = st.data
        ∧ (handlePasteIngest none ts st).keyDensity = st.keyDensity
        ∧ (handlePasteIngest none ts st).allKeys = st.allKeys)
      ∧ (∀ json : Json, locateArray json = [] →
          (handlePasteIngest (some json) ts st).data = st.data
          ∧ (handlePasteIngest (some json) ts st).keyDensity = st.keyDensity
          ∧ (handlePasteIngest (some json) ts st).allKeys = st.allKeys) := by
  intro st ts
  constructor
  · simp [handlePasteIngest]
  · intro json hloc
    have hp : processIngestedData json ts st
        = some { st with error := some "Could not find a valid array of data in the JSON." } := by
      simp [processIngestedData, hloc]
    simp [handlePasteIngest, hp]

/-- Witness for C7: a `NoArrayFound` ingestion over a populated state. -/
theorem claim_C7_witness :
    (handlePasteIngest (some (Json.obj [("a", Json.num 1)])) (fun _ => 0)
        ⟨[[("k", Json.num 7)]], [("k", 1)], ["k"], [], none, ViewMode.list⟩).data
      = [[("k", Json.num 7)]] :=
  ((claim_C7 ⟨[[("k", Json.num 7)]], [("k", 1)], ["k"], [], none, ViewMode.list⟩
      (fun _ => 0)).2 (Json.obj [("a", Json.num 1)]) rfl).1

/-! ### Claim about the record locator -/

/-- The locator as an operation: the located items when a non-empty array was
found, `none` for the `NoArrayFound` error path. -/
def locate (j : Json) : Option (List Json) :=
  if 0 < (locateArray j).length then some (locateArray j) else none

/-- Modelled from the claim's words (C2): rules applied in order with first
match winning — an array input is used directly; else the first candidate
property whose value is an array is used; otherwise for a non-empty object
the first array among own values is used; a missing or zero-length result
signals `NoArrayFound`. -/
def locateSpecC2 (j : Json) : Option (List Json) :=
  let found : Option (List Json) :=
    match j with
    | Json.arr xs => some xs
    | Json.obj fields =>
      match findCandidateArr candidates fields with
      | some xs => some xs
      | none => if 0 < fields.length then findArrValue fields else none
    | _ => none
  match found with
  | some xs => if 0 < xs.length then some xs else none
  | none => none

/-- C2 as stated is false: when the first matching candidate property holds an
*empty* array, the code still falls through to the value scan and can ingest a
different array, while the claimed first-match-wins rules signal
`NoArrayFound`.  Input: `{"other": [1], "data": []}`. -/
theorem claim_C2_counterexample :
    locate (Json.obj [("other", Json.arr [Json.num 1]), ("data", Json.arr [])])
        = some [Json.num 1]
      ∧ locateSpecC2 (Json.obj [("other", Json.arr [Json.num 1]), ("data", Json.arr [])])
        = none
      ∧ locate (Json.obj [("other", Json.arr [Json.num 1]), ("data", Json.arr [])])
        ≠ locateSpecC2 (Json.obj [("other", Json.arr [Json.num 1]), ("data", Json.arr [])]) := by
  refine ⟨rfl, rfl, ?_⟩
  intro h
  rw [show locate (Json.obj [("other", Json.arr [Json.num 1]), ("data", Json.arr [])])
      = some [Json.num 1] from rfl] at h
  rw [show locateSpecC2 (Json.obj [("other", Json.arr [Json.num 1]), ("data", Json.arr [])])
      = none from rfl] at h
  exact Option.noConfusion h

/-- Modelled from the amended claim (C2): the candidate-scan result is used
only when non-empty; when the candidate scan found nothing *or an empty
array*, a non-empty object falls back to the first array among its own values
in enumeration order (used even if empty); a missing or zero-length final
result signals `NoArrayFound`. -/
def locateSpecC2Amended (j : Json) : Option (List Json) :=
  match j with
  | Json.arr (x :: xs) => some (x :: xs)
  | Json.obj fields =>
    match findCandidateArr candidates fields with
    | some (x :: xs) => some (x :: xs)
    | _ =>
      if 0 < fields.length then
        match findArrValue fields with
        | some (y :: ys) => some (y :: ys)
        | _ => none
      else none
  | _ => none

/-- C2 amended: the record locator equals the amended first-match rules on
every input. -/
theorem claim_C2 : ∀ j : Json, locate j = locateSpecC2Amended j := by
  intro j
  cases j with
  | arr xs =>
      cases xs with
      | nil => rfl
      | cons x rest => simp [locate, locateArray, locateSpecC2Amended]
  | obj fields =>
      cases hc : findCandidateArr candidates fields with
      | some c =>
          have hne : fields ≠ [] := by
            intro h
            subst h
            rw [show findCandidateArr candidates [] = none from rfl] at hc
            exact Option.noConfusion hc
          have hlen : 0 < fields.length := List.length_pos.mpr hne
          cases c with
          | nil =>
              cases hf : findArrValue fields with
              | some f =>
                  cases f with
                  | nil => simp [locate, locateArray, locateSpecC2Amended, hc, hf, hlen]
                  | cons y ys => simp [locate, locateArray, locateSpecC2Amended, hc, hf, hlen]
              | none => simp [locate, locateArray, locateSpecC2Amended, hc, hf, hlen]
          | cons x xs => simp [locate, locateArray, locateSpecC2Amended, hc]
      | none =>
          cases hfe : fields with
          | nil => rfl
          | cons p fs =>
              have hlen : 0 < fields.length := by rw [hfe]; simp
              rw [← hfe]
              cases hf : findArrValue fields with
              | some f =>
                  cases f with
                  | nil => simp [locate, locateArray, locateSpecC2Amended, hc, hf, hlen]
                  | cons y ys => simp [locate, locateArray, locateSpecC2Amended, hc, hf, hlen]
              | none => simp [locate, locateArray, locateSpecC2Amended, hc, hf, hlen]
  | _ => rfl

/-! ### Decimal rendering facts for the synthesized ids -/

theorem digitChar_isDigit (m : Nat) (h : m < 10) : (Nat.digitChar m).isDigit = true := by
  interval_cases m <;> decide

theorem digitChar_sub_48 (m : Nat) (h : m < 10) : (Nat.digitChar m).toNat - 48 = m := by
  interval_cases m <;> decide

theorem toDigitsCore_isDigit : ∀ (fuel n : Nat) (ds : List Char),
    (∀ c ∈ ds, c.isDigit = true) →
    ∀ c ∈ Nat.toDigitsCore 10 fuel n ds, c.isDigit = true := by
  intro fuel
  induction fuel with
  | zero =>
      intro n ds hds c hc
      simp only [Nat.toDigitsCore] at hc
      exact hds c hc
  | succ fuel ih =>
      intro n ds hds c hc
      have hd : (Nat.digitChar (n % 10)).isDigit = true :=
        digitChar_isDigit _ (Nat.mod_lt _ (by norm_num))
      have hds2 : ∀ c ∈ (Nat.digitChar (n % 10) :: ds), c.isDigit = true := by
        intro c hc
        rcases List.mem_cons.mp hc with rfl | hc
        · exact hd
        · exact hds c hc
      by_cases h0 : n / 10 = 0
      · simp only [Nat.toDigitsCore, h0, if_pos] at hc
        exact hds2 c hc
      · simp only [Nat.toDigitsCore, h0, if_neg, if_false] at hc
        exact ih (n / 10) _ hds2 c hc

theorem toDigitsCore_fuel : ∀ (f1 f2 n : Nat) (ds : List Char),
    n < f1 → n < f2 →
    Nat.toDigitsCore 10 f1 n ds = Nat.toDigitsCore 10 f2 n ds := by
  intro f1
  induction f1 with
  | zero => intro f2 n ds h1 _; omega
  | succ f1 ih =>
      intro f2 n ds h1 h2
      cases f2 with
      | zero => omega
      | succ f2 =>
          simp only [Nat.toDigitsCore]
          by_cases h0 : n / 10 = 0
          · simp [h0]
          · simp only [h0, if_false]
            have hne : n ≠ 0 := by
              intro h
              subst h
              simp at h0
            have hlt : n / 10 < n := Nat.div_lt_self (Nat.pos_of_ne_zero hne) (by norm_num)
            exact ih f2 (n / 10) _ (by omega) (by omega)

theorem toDigitsCore_append : ∀ (fuel n : Nat) (ds : List Char),
    Nat.toDigitsCore 10 fuel n ds = Nat.toDigitsCore 10 fuel n [] ++ ds := by
  intro fuel
  induction fuel with
  | zero => intro n ds; simp [Nat.toDigitsCore]
  | succ fuel ih =>
      intro n ds
      simp only [Nat.toDigitsCore]
      by_cases h0 : n / 10 = 0
      · simp [h0]
      · simp only [h0, if_false]
        rw [ih (n / 10) (Nat.digitChar (n % 10) :: ds), ih (n / 10) [Nat.digitChar (n % 10)]]
        simp

/-- Decimal re-reading of a digit list, the left inverse used to show decimal
rendering is injective. -/
def valOfDigits (l : List Char) : Nat :=
  l.foldl (fun a c => 10 * a + (c.toNat - 48)) 0

theorem valOfDigits_toDigits : ∀ n : Nat, valOfDigits (Nat.toDigits 10 n) = n := by
  intro n
  induction n using Nat.strong_induction_on with
  | _ n ih =>
      rw [Nat.toDigits, Nat.toDigitsCore]
      by_cases h0 : n / 10 = 0
      · rw [if_pos h0]
        have hn : n < 10 := by omega
        show valOfDigits [Nat.digitChar (n % 10)] = n
        simp [valOfDigits, digitChar_sub_48 (n % 10) (Nat.mod_lt _ (by norm_num))]
        omega
      · rw [if_neg h0]
        have hne : n ≠ 0 := by
          intro h
          subst h
          simp at h0
        have hlt : n / 10 < n := Nat.div_lt_self (Nat.pos_of_ne_zero hne) (by norm_num)
        rw [toDigitsCore_fuel n (n / 10 + 1) (n / 10) _ (by omega) (by omega)]
        rw [toDigitsCore_append]
        rw [show Nat.toDigitsCore 10 (n / 10 + 1) (n / 10) [] = Nat.toDigits 10 (n / 10)
          from rfl]
        rw [valOfDigits, List.foldl_append]
        have hval : List.foldl (fun a c => 10 * a + (c.toNat - 48)) 0 (Nat.toDigits 10 (n / 10))
            = n / 10 := ih (n / 10) hlt
        rw [hval]
        simp only [List.foldl_cons, List.foldl_nil]
        rw [digitChar_sub_48 (n % 10) (Nat.mod_lt _ (by norm_num))]
        omega

theorem toDigits_inj {n m : Nat} (h : Nat.toDigits 10 n = Nat.toDigits 10 m) : n = m := by
  have h1 := valOfDigits_toDigits n
  rw [h, valOfDigits_toDigits m] at h1
  exact h1.symm

theorem repr_data_isDigit (n : Nat) : ∀ c ∈ (Nat.repr n).data, c.isDigit = true := by
  intro c hc
  have : (Nat.repr n).data = Nat.toDigits 10 n := rfl
  rw [this] at hc
  exact toDigitsCore_isDigit (n + 1) n [] (by simp) c hc

theorem append_dash_inj : ∀ (xs : List Char), ∀ (xs' ys ys' : List Char),
    (∀ c ∈ xs, c.isDigit = true) → (∀ c ∈ xs', c.isDigit = true) →
    xs ++ '-' :: ys = xs' ++ '-' :: ys' → xs = xs' := by
  intro xs
  induction xs with
  | nil =>
      intro xs' ys ys' _ hx' h
      cases xs' with
      | nil => rfl
      | cons c rest =>
          simp only [List.nil_append, List.cons_append, List.cons.injEq] at h
          have := hx' c (List.mem_cons_self ..)
          rw [← h.1] at this
          exact absurd this (by decide)
  | cons c rest ih =>
      intro xs' ys ys' hx hx' h
      cases xs' with
      | nil =>
          simp only [List.cons_append, List.nil_append, List.cons.injEq] at h
          have := hx c (List.mem_cons_self ..)
          rw [h.1] at this
          exact absurd this (by decide)
      | cons c' rest' =>
          simp only [List.cons_append, List.cons.injEq] at h
          rw [h.1, ih rest' ys ys' (fun d hd => hx d (List.mem_cons_of_mem _ hd))
            (fun d hd => hx' d (List.mem_cons_of_mem _ hd)) h.2]

theorem genId_inj_idx {i t1 j t2 : Nat} (h : genId i t1 = genId j t2) : i = j := by
  have hd := congrArg String.data h
  have hsplit : (Nat.repr i).data ++ '-' :: (Nat.repr t1).data
      = (Nat.repr j).data ++ '-' :: (Nat.repr t2).data := by
    have h1 : ("gen-" ++ Nat.repr i ++ "-" ++ Nat.repr t1).data
        = 'g' :: 'e' :: 'n' :: '-' :: ((Nat.repr i).data ++ '-' :: (Nat.repr t1).data) := by
      show ((("gen-".data ++ (Nat.repr i).data) ++ "-".data) ++ (Nat.repr t1).data) = _
      simp [List.append_assoc]
    have h2 : ("gen-" ++ Nat.repr j ++ "-" ++ Nat.repr t2).data
        = 'g' :: 'e' :: 'n' :: '-' :: ((Nat.repr j).data ++ '-' :: (Nat.repr t2).data) := by
      show ((("gen-".data ++ (Nat.repr j).data) ++ "-".data) ++ (Nat.repr t2).data) = _
      simp [List.append_assoc]
    rw [genId, genId, h1, h2] at hd
    simpa using hd
  have := append_dash_inj (Nat.repr i).data (Nat.repr j).data _ _
    (repr_data_isDigit i) (repr_data_isDigit j) hsplit
  exact toDigits_inj this

/-- Synthesized ids are pairwise distinct across the ordinal positions of one
ingestion pass, whatever `Date.now()` returned each time. -/
theorem genId_ne {i j : Nat} (t1 t2 : Nat) (hij : i ≠ j) : genId i t1 ≠ genId j t2 :=
  fun h => hij (genId_inj_idx h)

/-! ### Claim about id assignment -/

theorem jsGet_map_rk (acc : FlatRec) (k : String) (v : Json)
    (h : acc.any (fun p => p.1 = k)) :
    jsGet (acc.map (rk k v)) k = some v := by
  induction acc with
  | nil => simp at h
  | cons q rest ih =>
      by_cases hq : q.1 = k
      · simp only [List.map_cons, jsGet]
        rw [show rk k v q = (k, v) by simp [rk, hq]]
        rw [List.find?_cons_of_pos _ (by simp)]
        rfl
      · have h' : rest.any (fun p => p.1 = k) := by
          simp only [List.any_cons, Bool.or_eq_true, decide_eq_true_eq] at h
          rcases h with h | h
          · exact absurd h hq
          · exact h
        simp only [List.map_cons, jsGet]
        rw [show rk k v q = q by simp [rk, hq]]
        rw [List.find?_cons_of_neg _ (by simp [hq])]
        exact ih h'

theorem jsGet_append_absent (acc : FlatRec) (k : String) (v : Json)
    (h : k ∉ keysOf acc) : jsGet (acc ++ [(k, v)]) k = some v := by
  induction acc with
  | nil => simp [jsGet, List.find?]
  | cons q rest ih =>
      have hq : ¬ q.1 = k := by
        intro hh
        exact h (hh ▸ List.mem_map_of_mem Prod.fst (List.mem_cons_self ..))
      simp only [List.cons_append, jsGet]
      rw [List.find?_cons_of_neg _ (by simp [hq])]
      exact ih (fun hm => h (List.mem_map.mp hm |>.elim
        (fun p hp => hp.2 ▸ List.mem_map_of_mem Prod.fst (List.mem_cons_of_mem _ hp.1))))

theorem jsGet_objSet_self (acc : FlatRec) (k : String) (v : Json) :
    jsGet (objSet acc k v) k = some v := by
  by_cases h : acc.any (fun p => p.1 = k)
  · rw [objSet_eq_rk, if_pos h]
    exact jsGet_map_rk acc k v h
  · have habs : k ∉ keysOf acc := by
      intro hm
      obtain ⟨p, hp, rfl⟩ := List.mem_map.mp hm
      exact h (List.any_eq_true.mpr ⟨p, hp, by simp⟩)
    rw [objSet_absent acc k v habs]
    exact jsGet_append_absent acc k v habs

/-- The id finally carried by the normalized record of `item` at ordinal
position `idx` with `Date.now() = t`. -/
def assignedId (item : Json) (idx t : Nat) : Option Json :=
  (processItem item idx t).bind (fun r => jsGet r "id")

theorem assignedId_eq (item : Json) (idx t : Nat) (flat : FlatRec)
    (hf : flattenObject item "" = some flat) :
    assignedId item idx t
      = some (jsOrOpt (jsGetProp item "id")
          (jsOrOpt (jsGet flat "id") (Json.str (genId idx t)))) := by
  rw [assignedId, processItem, hf]
  simp only [Option.map_some', Option.bind_some]
  exact jsGet_objSet_self flat "id" _

/-- C3 as stated is false: an `id` *present* on the raw item does not always
take precedence — JS `||` skips falsy ids, so `{"id": 0}` gets a synthesized
id instead of keeping `0`. -/
theorem claim_C3_counterexample :
    ¬ (∀ (item : Json) (idx t : Nat) (v : Json),
        jsGetProp item "id" = some v → assignedId item idx t = some v) := by
  intro h
  have hc := h (Json.obj [("id", Json.num 0)]) 0 5 (Json.num 0) rfl
  have he : assignedId (Json.obj [("id", Json.num 0)]) 0 5
      = some (Json.str (genId 0 5)) := by
    rw [assignedId_eq (Json.obj [("id", Json.num 0)]) 0 5 [("id", Json.num 0)]
      (by simp [flattenObject, jsEntries, flattenFields, objSet])]
    simp [jsGetProp, jsGet, jsOrOpt, truthy, List.find?]
  rw [he] at hc
  simp at hc

/-- C3 amended: a *truthy* `id` on the raw item takes precedence over a truthy
`id` in the flattened form, which takes precedence over synthesis (falsy ids —
`0`, `""`, `false`, `null` — fall through, per JS `||`); and synthesized ids
are pairwise distinct within one ingestion pass. -/
theorem claim_C3 :
    (∀ (item : Json) (idx t : Nat) (v : Json),
        jsGetProp item "id" = some v → truthy v = true →
        assignedId item idx t = some v)
    ∧ (∀ (item : Json) (idx t : Nat) (flat : FlatRec) (v : Json),
        flattenObject item "" = some flat →
        (∀ w, jsGetProp item "id" = some w → truthy w = false) →
        jsGet flat "id" = some v → truthy v = true →
        assignedId item idx t = some v)
    ∧ (∀ (item : Json) (idx t : Nat) (flat : FlatRec),
        flattenObject item "" = some flat →
        (∀ w, jsGetProp item "id" = some w → truthy w = false) →
        (∀ w, jsGet flat "id" = some w → truthy w = false) →
        assignedId item idx t = some (Json.str (genId idx t)))
    ∧ (∀ (ts : Nat → Nat) (i j : Nat), i ≠ j →
        Json.str (genId i (ts i)) ≠ Json.str (genId j (ts j))) := by
  refine ⟨?_, ?_, ?_, ?_⟩
  · intro item idx t v hid htr
    have hobj : ∃ fields, item = Json.obj fields := by
      cases item <;> simp [jsGetProp] at hid
      exact ⟨_, rfl⟩
    obtain ⟨fields, rfl⟩ := hobj
    rw [assignedId_eq _ idx t (flattenFields fields "" [])
      (by simp [flattenObject, jsEntries])]
    rw [hid]
    simp [jsOrOpt, htr]
  · intro item idx t flat v hf hraw hflat htr
    rw [assignedId_eq item idx t flat hf]
    cases hr : jsGetProp item "id" with
    | none => simp [jsOrOpt, hflat, htr]
    | some w =>
        have := hraw w hr
        simp [jsOrOpt, this, hflat, htr]
  · intro item idx t flat hf hraw hflat
    rw [assignedId_eq item idx t flat hf]
    cases hr : jsGetProp item "id" with
    | none =>
        cases hfl : jsGet flat "id" with
        | none => simp [jsOrOpt]
        | some w => simp [jsOrOpt, hflat w hfl]
    | some w =>
        cases hfl : jsGet flat "id" with
        | none => simp [jsOrOpt, hraw w hr]
        | some w2 => simp [jsOrOpt, hraw w hr, hflat w2 hfl]
  · intro ts i j hij h
    injection h with h
    exact genId_ne (ts i) (ts j) hij h

/-- Witness for C3: a truthy raw id `"r1"` is kept; the spec example record
keeps its id. -/
theorem claim_C3_witness :
    assignedId (Json.obj [("id", Json.str "r1")]) 0 7 = some (Json.str "r1") :=
  claim_C3.1 (Json.obj [("id", Json.str "r1")]) 0 7 (Json.str "r1") rfl rfl

/-! ### Claims about the transform-merge coordinator -/

theorem mapGet_recId (out : List FlatRec) (key : Option Json) :
    ∀ r, mapGet out key = some r → recId r = key := by
  induction out with
  | nil => intro r h; exact Option.noConfusion h
  | cons q rest ih =>
      intro r h
      rw [mapGet] at h
      cases hrest : mapGet rest key with
      | some hit =>
          rw [hrest] at h
          exact ih r (hrest.trans (by injection h with h; rw [h]))
      | none =>
          rw [hrest] at h
          by_cases hq : recId q = key
          · rw [if_pos hq] at h
            injection h with h
            rw [h] at hq
            exact hq
          · rw [if_neg hq] at h
            exact Option.noConfusion h

theorem handleTransform_selected (st : AppState)
    (engine : List FlatRec → Option (List FlatRec)) (out : List FlatRec)
    (hsel : st.selectedIds ≠ []) (heng : engine (itemsToTransform st) = some out) :
    (handleTransform st engine).data
      = st.data.map (fun d => (mapGet out (recId d)).getD d) := by
  have hlen : ¬ st.selectedIds.length = 0 := by
    intro h
    exact hsel (List.length_eq_zero.mp h)
  rw [handleTransform, if_neg (by intro h; exact hlen h.1), heng]
  simp [hlen]

theorem handleTransform_full (st : AppState)
    (engine : List FlatRec → Option (List FlatRec)) (out : List FlatRec)
    (hsel : st.selectedIds = []) (hdata : st.data ≠ [])
    (heng : engine (itemsToTransform st) = some out) :
    (handleTransform st engine).data = out := by
  have hlen : ¬ st.data.length = 0 := by
    intro h
    exact hdata (List.length_eq_zero.mp h)
  rw [handleTransform, if_neg (by intro h; exact hlen h.2), heng]
  simp [hsel]

/-- C6: a transform-merge with a non-empty selection replaces, in original
WorkingSet order, exactly those records whose id has an entry in the engine
output map (last entry wins), leaving untouched records as-is; with an empty
selection (full-set batch) the new WorkingSet is the engine output sequence
itself. -/
theorem claim_C6 :
    ∀ (st : AppState) (engine : List FlatRec → Option (List FlatRec))
      (out : List FlatRec),
      engine (itemsToTransform st) = some out →
      (st.selectedIds ≠ [] →
        (handleTransform st engine).data
          = st.data.map (fun d => (mapGet out (recId d)).getD d))
      ∧ (st.selectedIds = [] → st.data ≠ [] →
        (handleTransform st engine).data = out) := by
  intro st engine out heng
  exact ⟨fun hsel => handleTransform_selected st engine out hsel heng,
    fun hsel hdata => handleTransform_full st engine out hsel hdata heng⟩

/-- Witness for C6: a two-record set with one selected id; the engine rewrites
record `id 1` and the merge keeps record `id 2` as-is. -/
theorem claim_C6_witness :
    (handleTransform
        ⟨[[("id", Json.num 1), ("v", Json.num 10)], [("id", Json.num 2)]],
          [], [], [Json.num 1], none, ViewMode.list⟩
        (fun _ => some [[("id", Json.num 1), ("v", Json.num 99)]])).data
      = [[("id", Json.num 1), ("v", Json.num 99)], [("id", Json.num 2)]] := by
  have h := (claim_C6
      ⟨[[("id", Json.num 1), ("v", Json.num 10)], [("id", Json.num 2)]],
        [], [], [Json.num 1], none, ViewMode.list⟩
      (fun _ => some [[("id", Json.num 1), ("v", Json.num 99)]])
      [[("id", Json.num 1), ("v", Json.num 99)]] rfl).1 (by simp)
  rw [h]
  simp [mapGet, recId, jsGet, List.find?]

/-- C10: a partial transform-merge (non-empty selection) preserves the length
and the exact id sequence of the WorkingSet — engine records with unmatched
ids are dropped, never appended. -/
theorem claim_C10 :
    ∀ (st : AppState) (engine : List FlatRec → Option (List FlatRec))
      (out : List FlatRec),
      engine (itemsToTransform st) = some out →
      st.selectedIds ≠ [] →
      (handleTransform st engine).data.length = st.data.length
      ∧ (handleTransform st engine).data.map recId = st.data.map recId := by
  intro st engine out heng hsel
  rw [handleTransform_selected st engine out hsel heng]
  constructor
  · simp
  · rw [List.map_map]
    apply List.map_congr_left
    intro d _
    simp only [Function.comp_apply]
    cases hm : mapGet out (recId d) with
    | none => rfl
    | some r =>
        simp only [Option.getD_some]
        exact mapGet_recId out (recId d) r hm

/-! ### Comparator facts for the key sort -/

theorem jsIndexOf_inj : ∀ (l : List String) (a b : String) (i : Nat),
    jsIndexOf l a = some i → jsIndexOf l b = some i → a = b := by
  intro l
  induction l with
  | nil => intro a b i ha _; exact Option.noConfusion ha
  | cons x xs ih =>
      intro a b i ha hb
      by_cases hxa : x = a
      · rw [jsIndexOf, if_pos hxa] at ha
        injection ha with ha
        by_cases hxb : x = b
        · rw [← hxa, hxb]
        · rw [jsIndexOf, if_neg hxb] at hb
          cases hm : jsIndexOf xs b with
          | none => rw [hm] at hb; exact Option.noConfusion hb
          | some m =>
              rw [hm] at hb
              simp only [Option.map_some'] at hb
              injection hb with hb
              omega
      · rw [jsIndexOf, if_neg hxa] at ha
        cases hm : jsIndexOf xs a with
        | none => rw [hm] at ha; exact Option.noConfusion ha
        | some m =>
            rw [hm] at ha
            simp only [Option.map_some'] at ha
            injection ha with ha
            by_cases hxb : x = b
            · rw [jsIndexOf, if_pos hxb] at hb
              injection hb with hb
              omega
            · rw [jsIndexOf, if_neg hxb] at hb
              cases hm' : jsIndexOf xs b with
              | none => rw [hm'] at hb; exact Option.noConfusion hb
              | some m' =>
                  rw [hm'] at hb
                  simp only [Option.map_some'] at hb
                  injection hb with hb
                  exact ih a b m hm (by rw [hm']; congr 1; omega)

theorem localeCompare_le_iff (a b : String) : localeCompare a b ≤ 0 ↔ a ≤ b := by
  unfold localeCompare
  rcases lt_trichotomy a b with h | h | h
  · simp [h, le_of_lt h]
  · subst h
    simp
  · rw [if_neg (asymm h), if_pos h]
    simp [not_le_of_lt h]

theorem localeCompare_eq_zero (a b : String) (h : localeCompare a b = 0) : a = b := by
  unfold localeCompare at h
  rcases lt_trichotomy a b with h' | h' | h'
  · rw [if_pos h'] at h
    exact absurd h (by decide)
  · exact h'
  · rw [if_neg (asymm h'), if_pos h'] at h
    exact absurd h (by decide)

theorem localeCompare_lt_iff (a b : String) : localeCompare a b < 0 ↔ a < b := by
  unfold localeCompare
  rcases lt_trichotomy a b with h | h | h
  · simp [h]
  · subst h
    simp
  · rw [if_neg (asymm h), if_pos h]
    simp [asymm h]

theorem keyCmp_none_le (d : List (String × Nat)) (a b : String)
    (ha : jsIndexOf priority a = none) (hb : jsIndexOf priority b = none) :
    (keyCmp d a b ≤ 0 ↔ (dGet d b < dGet d a ∨ (dGet d b = dGet d a ∧ a ≤ b))) := by
  simp only [keyCmp, ha, hb]
  by_cases e : dGet d b = dGet d a
  · rw [if_neg (by simp [e])]
    rw [localeCompare_le_iff]
    simp [e]
  · rw [if_pos (by simpa using e)]
    constructor
    · intro h
      left
      omega
    · rintro (h | ⟨h, _⟩)
      · omega
      · exact absurd h e

theorem keyCmp_trans (d : List (String × Nat)) (a b c : String)
    (h1 : keyCmp d a b ≤ 0) (h2 : keyCmp d b c ≤ 0) : keyCmp d a c ≤ 0 := by
  cases ha : jsIndexOf priority a with
  | some i =>
      cases hc : jsIndexOf priority c with
      | none => simp [keyCmp, ha, hc]
      | some l =>
          cases hb : jsIndexOf priority b with
          | none => simp only [keyCmp, hb, hc] at h2; omega
          | some j =>
              simp only [keyCmp, ha, hb] at h1
              simp only [keyCmp, hb, hc] at h2
              simp only [keyCmp, ha, hc]
              omega
  | none =>
      cases hb : jsIndexOf priority b with
      | some j => simp only [keyCmp, ha, hb] at h1; omega
      | none =>
          cases hc : jsIndexOf priority c with
          | some l => simp only [keyCmp, hb, hc] at h2; omega
          | none =>
              rw [keyCmp_none_le d a b ha hb] at h1
              rw [keyCmp_none_le d b c hb hc] at h2
              rw [keyCmp_none_le d a c ha hc]
              rcases h1 with h1 | ⟨h1e, h1le⟩
              · rcases h2 with h2 | ⟨h2e, _⟩
                · left; omega
                · left; omega
              · rcases h2 with h2 | ⟨h2e, h2le⟩
                · left; omega
                · right; exact ⟨by omega, le_trans h1le h2le⟩

theorem keyCmp_total (d : List (String × Nat)) (a b : String) :
    keyCmp d a b ≤ 0 ∨ keyCmp d b a ≤ 0 := by
  cases ha : jsIndexOf priority a with
  | some i =>
      cases hb : jsIndexOf priority b with
      | some j => simp only [keyCmp, ha, hb]; omega
      | none => left; simp [keyCmp, ha, hb]
  | none =>
      cases hb : jsIndexOf priority b with
      | some j => right; simp [keyCmp, hb, ha]
      | none =>
          rw [keyCmp_none_le d a b ha hb, keyCmp_none_le d b a hb ha]
          rcases Nat.lt_trichotomy (dGet d b) (dGet d a) with h | h | h
          · left; left; exact h
          · rcases le_total a b with hle | hle
            · left; right; exact ⟨h, hle⟩
            · right; right; exact ⟨h.symm, hle⟩
          · right; left; exact h

theorem keyCmp_eq_zero (d : List (String × Nat)) (a b : String)
    (h : keyCmp d a b = 0) : a = b := by
  cases ha : jsIndexOf priority a with
  | some i =>
      cases hb : jsIndexOf priority b with
      | some j =>
          simp only [keyCmp, ha, hb] at h
          exact jsIndexOf_inj priority a b i ha (by rw [hb]; congr 1; omega)
      | none =>
          simp only [keyCmp, ha, hb] at h
          exact absurd h (by decide)
  | none =>
      cases hb : jsIndexOf priority b with
      | some j =>
          simp only [keyCmp, ha, hb] at h
          exact absurd h (by decide)
      | none =>
          simp only [keyCmp, ha, hb] at h
          by_cases e : dGet d b = dGet d a
          · rw [if_neg (by simp [e])] at h
            exact localeCompare_eq_zero a b h
          · rw [if_pos (by simpa using e)] at h
            exact absurd (by omega : dGet d b = dGet d a) e

/-- Modelled from the claim's ordering rule (C5): `a` comes before `b` when
both are priority keys and `a` is earlier in the priority list; when only `a`
is a priority key; or when neither is and `a` has strictly higher density, or
equal density and `a` is lexicographically smaller. -/
def claimKeyBefore (d : List (String × Nat)) (a b : String) : Prop :=
  match jsIndexOf priority a, jsIndexOf priority b with
  | some i, some j => i < j
  | some _, none => True
  | none, some _ => False
  | none, none =>
      dGet d b < dGet d a ∨ (dGet d a = dGet d b ∧ a < b)

theorem keyCmp_le_ne_before (d : List (String × Nat)) (a b : String)
    (hle : keyCmp d a b ≤ 0) (hne : a ≠ b) : claimKeyBefore d a b := by
  have hlt : keyCmp d a b < 0 := by
    rcases lt_or_eq_of_le hle with h | h
    · exact h
    · exact absurd (keyCmp_eq_zero d a b h) hne
  cases ha : jsIndexOf priority a with
  | some i =>
      cases hb : jsIndexOf priority b with
      | some j =>
          simp only [keyCmp, ha, hb] at hlt
          simp only [claimKeyBefore, ha, hb]
          omega
      | none => simp [claimKeyBefore, ha, hb]
  | none =>
      cases hb : jsIndexOf priority b with
      | some j =>
          simp only [keyCmp, ha, hb] at hlt
          exact absurd hlt (by decide)
      | none =>
          simp only [keyCmp, ha, hb] at hlt
          simp only [claimKeyBefore, ha, hb]
          by_cases e : dGet d b = dGet d a
          · rw [if_neg (by simp [e])] at hlt
            right
            exact ⟨e.symm, (localeCompare_lt_iff a b).mp hlt⟩
          · rw [if_pos (by simpa using e)] at hlt
            left
            omega


theorem dedupFirst_mem : ∀ (l : List String) (a : String), a ∈ dedupFirst l ↔ a ∈ l := by
  intro l
  induction l using dedupFirst.induct with
  | case1 => intro a; simp [dedupFirst]
  | case2 x xs ih =>
      intro a
      simp only [dedupFirst, List.mem_cons]
      rw [ih a, List.mem_filter]
      by_cases hax : a = x
      · simp [hax]
      · simp [hax]

theorem dedupFirst_nodup : ∀ l : List String, (dedupFirst l).Nodup := by
  intro l
  induction l using dedupFirst.induct with
  | case1 => simp [dedupFirst]
  | case2 x xs ih =>
      simp only [dedupFirst, List.nodup_cons]
      refine ⟨?_, ih⟩
      intro hmem
      have h1 := (dedupFirst_mem _ x).mp hmem
      have h2 := (List.mem_filter.mp h1).2
      simp at h2

/-- The KeyOrder property claimed in C5, over the state left by an
ingestion: `keys` lists exactly the keys observed across `data` minus
`id`/`status`, without duplicates, in the claimed order. -/
def KeyOrderSpec (d : List (String × Nat)) (data : List FlatRec)
    (keys : List String) : Prop :=
  (∀ k, k ∈ keys ↔ (k ≠ "id" ∧ k ≠ "status" ∧ ∃ r ∈ data, k ∈ keysOf r))
  ∧ keys.Nodup
  ∧ keys.Pairwise (claimKeyBefore d)

/-- C5: after every successful ingestion, KeyOrder is the duplicate-free
sequence of all keys observed across the working set excluding `id` and
`status`, ordered first by the fixed priority list (in its order), then for
non-priority keys by descending density, with ties broken lexicographically. -/
theorem claim_C5 :
    ∀ (json : Json) (ts : Nat → Nat) (st st' : AppState),
      locateArray json ≠ [] →
      processIngestedData json ts st = some st' →
      KeyOrderSpec st'.keyDensity st'.data st'.allKeys := by
  intro json ts st st' hloc hst
  have hlen : 0 < (locateArray json).length := List.length_pos.mpr hloc
  rw [processIngestedData, if_pos hlen] at hst
  obtain ⟨processed, hproc, rfl⟩ := Option.map_eq_some'.mp hst
  show KeyOrderSpec (computeDensity processed) processed
    ((sortKeys (computeDensity processed) (dedupFirst (processed.flatMap keysOf))).filter
      (fun k => k != "id" && k != "status"))
  have htransB : ∀ a b c : String,
      (decide (keyCmp (computeDensity processed) a b ≤ 0)) = true →
      (decide (keyCmp (computeDensity processed) b c ≤ 0)) = true →
      (decide (keyCmp (computeDensity processed) a c ≤ 0)) = true := by
    intro a b c h1 h2
    simp only [decide_eq_true_eq] at h1 h2 ⊢
    exact keyCmp_trans _ a b c h1 h2
  have htotalB : ∀ a b : String,
      ((decide (keyCmp (computeDensity processed) a b ≤ 0))
        || (decide (keyCmp (computeDensity processed) b a ≤ 0))) = true := by
    intro a b
    simp only [Bool.or_eq_true, decide_eq_true_eq]
    exact keyCmp_total _ a b
  have hperm : (sortKeys (computeDensity processed)
      (dedupFirst (processed.flatMap keysOf))).Perm
      (dedupFirst (processed.flatMap keysOf)) :=
    List.mergeSort_perm _ _
  have hnodupKeys : (dedupFirst (processed.flatMap keysOf)).Nodup := dedupFirst_nodup _
  have hnodupSorted : (sortKeys (computeDensity processed)
      (dedupFirst (processed.flatMap keysOf))).Nodup :=
    (hperm.nodup_iff).mpr hnodupKeys
  refine ⟨?_, ?_, ?_⟩
  · intro k
    rw [List.mem_filter]
    constructor
    · rintro ⟨hmem, hpred⟩
      have h1 : k ∈ dedupFirst (processed.flatMap keysOf) := (hperm.mem_iff).mp hmem
      have h2 : k ∈ processed.flatMap keysOf := (dedupFirst_mem _ k).mp h1
      simp only [Bool.and_eq_true, bne_iff_ne, ne_eq] at hpred
      exact ⟨hpred.1, hpred.2, List.mem_flatMap.mp h2⟩
    · rintro ⟨h1, h2, hr⟩
      refine ⟨?_, ?_⟩
      · exact (hperm.mem_iff).mpr ((dedupFirst_mem _ k).mpr (List.mem_flatMap.mpr hr))
      · simp [h1, h2]
  · exact hnodupSorted.filter _
  · have h1 : (sortKeys (computeDensity processed)
        (dedupFirst (processed.flatMap keysOf))).Pairwise
        (fun a b => keyCmp (computeDensity processed) a b ≤ 0) := by
      have := List.sorted_mergeSort htransB htotalB (dedupFirst (processed.flatMap keysOf))
      exact this.imp (fun h => by simpa using h)
    have h2 := h1.and hnodupSorted
    have h3 : (sortKeys (computeDensity processed)
        (dedupFirst (processed.flatMap keysOf))).Pairwise
        (claimKeyBefore (computeDensity processed)) :=
      h2.imp (fun h => keyCmp_le_ne_before _ _ _ h.1 h.2)
    exact List.Pairwise.sublist (List.filter_sublist _) h3

/-! ### Claims about the concrete ingestion example -/

/-- The spec's testable-property input `[{"x":1},{"x":2}]`. -/
def exIngestInput : Json :=
  Json.arr [Json.obj [("x", Json.num 1)], Json.obj [("x", Json.num 2)]]

/-- C4 as stated is false: KeyDensity is computed over the *normalized*
records, which already carry the synthesized `id`, so its mapping is
`{x: 2, id: 2}`, not exactly `{x: 2}`. -/
theorem claim_C4_counterexample :
    ((processIngestedData exIngestInput (fun _ => 0)
        ⟨[], [], [], [], none, ViewMode.ingest⟩).getD
          ⟨[], [], [], [], none, ViewMode.ingest⟩).keyDensity
      = [("x", 2), ("id", 2)]
    ∧ dGet ((processIngestedData exIngestInput (fun _ => 0)
        ⟨[], [], [], [], none, ViewMode.ingest⟩).getD
          ⟨[], [], [], [], none, ViewMode.ingest⟩).keyDensity "id" = 2 := by
  constructor
  · simp [processIngestedData, exIngestInput, locateArray, processItems, processItemsFrom,
      processItem, flattenObject, jsEntries, flattenFields, objSet, objAssign, jsGet,
      jsGetProp, jsOrOpt, truthy, computeDensity, bumpKey, keysOf, dedupFirst, sortKeys,
      keyCmp, dGet, jsIndexOf, priority, candidates, localeCompare,
      List.mergeSort, List.merge, List.find?, List.filter]
  · simp [processIngestedData, exIngestInput, locateArray, processItems, processItemsFrom,
      processItem, flattenObject, jsEntries, flattenFields, objSet, objAssign, jsGet,
      jsGetProp, jsOrOpt, truthy, computeDensity, bumpKey, keysOf, dedupFirst, sortKeys,
      keyCmp, dGet, jsIndexOf, priority, candidates, localeCompare,
      List.mergeSort, List.merge, List.find?, List.filter]

/-- C4 amended: ingesting `[{"x":1},{"x":2}]` yields a WorkingSet of length 2
whose records carry distinct synthesized ids, KeyDensity `{x: 2, id: 2}`
(the computed mapping also counts the assigned `id` key), and KeyOrder
`["x"]`. -/
theorem claim_C4 : ∀ (ts : Nat → Nat) (st : AppState),
    processIngestedData exIngestInput ts st
      = some { st with
          data := [[("x", Json.num 1), ("id", Json.str (genId 0 (ts 0)))],
                   [("x", Json.num 2), ("id", Json.str (genId 1 (ts 1)))]],
          keyDensity := [("x", 2), ("id", 2)],
          allKeys := ["x"],
          viewMode := ViewMode.list,
          error := none }
    ∧ Json.str (genId 0 (ts 0)) ≠ Json.str (genId 1 (ts 1)) := by
  intro ts st
  constructor
  · simp [processIngestedData, exIngestInput, locateArray, processItems, processItemsFrom,
      processItem, flattenObject, jsEntries, flattenFields, objSet, objAssign, jsGet,
      jsGetProp, jsOrOpt, truthy, computeDensity, bumpKey, keysOf, dedupFirst, sortKeys,
      keyCmp, dGet, jsIndexOf, priority, candidates, localeCompare,
      List.mergeSort, List.merge, List.find?, List.filter]
  · intro h
    injection h with h
    exact absurd h (genId_ne (ts 0) (ts 1) (by decide))

/-- Witness for C4 at the all-zero timestamp oracle and an empty prior
state. -/
theorem claim_C4_witness :
    processIngestedData exIngestInput (fun _ => 0) ⟨[], [], [], [], none, ViewMode.ingest⟩
      = some ⟨[[("x", Json.num 1), ("id", Json.str (genId 0 0))],
               [("x", Json.num 2), ("id", Json.str (genId 1 0))]],
              [("x", 2), ("id", 2)], ["x"], [], none, ViewMode.list⟩ :=
  (claim_C4 (fun _ => 0) ⟨[], [], [], [], none, ViewMode.ingest⟩).1

/-- Witness for C5, at the ingestion of `[{"x":1},{"x":2}]`. -/
theorem claim_C5_witness :
    KeyOrderSpec [("x", 2), ("id", 2)]
      [[("x", Json.num 1), ("id", Json.str (genId 0 0))],
       [("x", Json.num 2), ("id", Json.str (genId 1 0))]]
      ["x"] := by
  have heval : processIngestedData exIngestInput (fun _ => 0)
      ⟨[], [], [], [], none, ViewMode.ingest⟩
      = some ⟨[[("x", Json.num 1), ("id", Json.str (genId 0 0))],
               [("x", Json.num 2), ("id", Json.str (genId 1 0))]],
              [("x", 2), ("id", 2)], ["x"], [], none, ViewMode.list⟩ := by
    simp [processIngestedData, exIngestInput, locateArray, processItems, processItemsFrom,
      processItem, flattenObject, jsEntries, flattenFields, objSet, objAssign, jsGet,
      jsGetProp, jsOrOpt, truthy, computeDensity, bumpKey, keysOf, dedupFirst, sortKeys,
      keyCmp, dGet, jsIndexOf, priority, candidates, localeCompare,
      List.mergeSort, List.merge, List.find?, List.filter]
  exact claim_C5 exIngestInput (fun _ => 0) ⟨[], [], [], [], none, ViewMode.ingest⟩ _
    (by simp [exIngestInput, locateArray]) heval

/-- Witness for C10: the engine returns a record with a brand-new id 9; the
merged set keeps length 1 and id sequence `[2]`. -/
theorem claim_C10_witness :
    (handleTransform ⟨[[("id", Json.num 2)]], [], [], [Json.num 2], none, ViewMode.list⟩
        (fun _ => some [[("id", Json.num 9)]])).data.length = 1
    ∧ (handleTransform ⟨[[("id", Json.num 2)]], [], [], [Json.num 2], none, ViewMode.list⟩
        (fun _ => some [[("id", Json.num 9)]])).data.map recId
      = [[("id", Json.num 2)]].map recId := by
  have h := claim_C10 ⟨[[("id", Json.num 2)]], [], [], [Json.num 2], none, ViewMode.list⟩
    (fun _ => some [[("id", Json.num 9)]]) [[("id", Json.num 9)]] rfl (by simp)
  exact ⟨h.1, h.2⟩

end JsonApp

